import Mathlib

/-!
Verification of the FEM nonlinear-diffusion engine (1D finite elements,
forward Euler time stepping).  The C++ source stores dense Eigen matrices of
doubles; here real arithmetic is modelled exactly over the rationals.  Dense
matrices are modelled as total functions on natural indices (entries outside
the logical range stay at their assembled values and are never read by the
solver, which only sums over indices below the node count).  The Eigen dense
linear solve (colPivHouseholderQr) is modelled by exact Cramer inversion: in
exact arithmetic it returns the unique solution whenever the matrix is
invertible; on a singular matrix Eigen returns an unspecified finite vector
without signalling any error, which the model represents by a placeholder
zero vector.
-/

open Matrix

/-- Dense vector of rationals, indexed by naturals (VectorXd). -/
abbrev Vec := ℕ → ℚ

/-- Dense matrix of rationals, indexed by naturals (MatrixXd). -/
abbrev Mat := ℕ → ℕ → ℚ

/-- Single entry assignment, modelling the Eigen write M(r, c) = x. -/
def upd (A : Mat) (r c : ℕ) (x : ℚ) : Mat :=
  fun i j => if i = r ∧ j = c then x else A i j

/-- Single entry assignment on a vector, modelling u(r) = x. -/
def updVec (v : Vec) (r : ℕ) (x : ℚ) : Vec :=
  fun i => if i = r then x else v i

/-- FEMSolver::assemble_mass_matrix.  Starting from the zero matrix, the loop
for i = 1; i < nx - 1 writes M(i, i) = 2/3 dx, M(i, i-1) = 1/6 dx,
M(i-1, i) = 1/6 dx, and afterwards the two boundary diagonal entries are set
to 1. -/
def assemble_mass_matrix (nx : ℤ) (dx : ℚ) : Mat :=
  let M0 : Mat := fun _ _ => 0
  let M1 := (List.range' 1 (nx - 2).toNat).foldl
    (fun M i => upd (upd (upd M i i (2/3*dx)) i (i-1) (1/6*dx)) (i-1) i (1/6*dx)) M0
  upd (upd M1 0 0 1) ((nx - 1).toNat) ((nx - 1).toNat) 1

/-- NonlinearDiffusionSolver::D, the nonlinear diffusion coefficient. -/
def D (u : ℚ) : ℚ := 1 + 0.5 * u

/-- NonlinearDiffusionSolver::assemble_stiffness_matrix.  The virtual call to
the diffusion coefficient is abstracted as the parameter Dc; the engine
instantiates it with D.  The loop writes K(i, i) = 2 d / dx and the two
off-diagonal entries -d / dx with d = Dc(u(i)), and afterwards the two
boundary diagonal entries are set to 1. -/
def assemble_stiffness_matrix (Dc : ℚ → ℚ) (u : Vec) (nx : ℤ) (dx : ℚ) : Mat :=
  let K0 : Mat := fun _ _ => 0
  let K1 := (List.range' 1 (nx - 2).toNat).foldl
    (fun K i =>
      let d := Dc (u i)
      upd (upd (upd K i i (2*d/dx)) i (i-1) (-d/dx)) (i-1) i (-d/dx)) K0
  upd (upd K1 0 0 1) ((nx - 1).toNat) ((nx - 1).toNat) 1

/-- NonlinearDiffusionSolver::apply_boundary_conditions: overwrite
u_new(0) and u_new(nx - 1) with the Dirichlet value 1. -/
def apply_boundary_conditions (nx : ℤ) (u_new : Vec) : Vec :=
  updVec (updVec u_new 0 1) ((nx - 1).toNat) 1

/-- The member state of FEMSolver: grid parameters, solution vector and the
mass matrix assembled at construction. -/
structure FEMSolver where
  nx : ℤ
  L : ℚ
  dx : ℚ
  dt : ℚ
  nt : ℤ
  u : Vec
  M : Mat

/-- The FEMSolver constructor: stores the parameters, derives
dx = L / (nx - 1), initialises u to the all-ones vector and assembles the
mass matrix once. -/
def construct (nx : ℤ) (L dt : ℚ) (nt : ℤ) : FEMSolver :=
  let dx : ℚ := L / ((nx : ℚ) - 1)
  { nx := nx, L := L, dx := dx, dt := dt, nt := nt
    u := fun _ => 1
    M := assemble_mass_matrix nx dx }

/-- Dense matrix-vector product over the first n coordinates (Eigen M * u). -/
def matVecMul (n : ℕ) (A : Mat) (v : Vec) : Vec :=
  fun i => ∑ j ∈ Finset.range n, A i j * v j

/-- The leading n-by-n block of a dense matrix, as a Mathlib matrix. -/
def finMat (n : ℕ) (A : Mat) : Matrix (Fin n) (Fin n) ℚ :=
  Matrix.of fun i j => A i.1 j.1

/-- The leading n coordinates of a dense vector. -/
def finVec (n : ℕ) (v : Vec) : Fin n → ℚ := fun i => v i.1

/-- Model of M.colPivHouseholderQr().solve(b): the exact solution of the
n-by-n system when the coefficient matrix is invertible (computed by Cramer),
and a placeholder vector on a singular matrix, where Eigen produces an
unspecified result without signalling. -/
def linSolveVec (n : ℕ) (A : Mat) (b : Vec) : Vec :=
  if (finMat n A).det = 0 then fun _ => 0
  else fun i => if h : i < n then Matrix.cramer (finMat n A) (finVec n b) ⟨i, h⟩ / (finMat n A).det else 0

/-- One iteration of the loop body of FEMSolver::solve: assemble the
stiffness matrix from the current u, form rhs = M u, solve
M u_new = rhs - dt K u, apply the boundary conditions and commit u_new.  The
virtual dispatch to the derived assembler is abstracted by the diffusion
coefficient parameter Dc. -/
def stepWith (Dc : ℚ → ℚ) (s : FEMSolver) : FEMSolver :=
  let K := assemble_stiffness_matrix Dc s.u s.nx s.dx
  let n := s.nx.toNat
  let rhs := matVecMul n s.M s.u
  let u_new := linSolveVec n s.M (fun i => rhs i - s.dt * matVecMul n K s.u i)
  { s with u := apply_boundary_conditions s.nx u_new }

/-- The counted loop of FEMSolver::solve, running a fixed number of
iterations with no early exit. -/
def solveLoopWith (Dc : ℚ → ℚ) : ℕ → FEMSolver → FEMSolver
  | 0, s => s
  | Nat.succ k, s => solveLoopWith Dc k (stepWith Dc s)

/-- FEMSolver::solve with the diffusion coefficient abstracted: run the loop
body nt times (an int loop bound runs max(nt, 0) iterations). -/
def solveWith (Dc : ℚ → ℚ) (s : FEMSolver) : FEMSolver :=
  solveLoopWith Dc s.nt.toNat s

/-- FEMSolver::solve as inherited by NonlinearDiffusionSolver: the loop uses
the overridden stiffness assembly built on the diffusion coefficient D. -/
def solve (s : FEMSolver) : FEMSolver := solveWith D s

/-! ### Entry-level characterisation of the assembly loops -/

/-- The common shape of both assembly loops: for each index i of the list,
write the diagonal entry f i, the sub-diagonal entry g i and the
super-diagonal entry gs i. -/
def tridiagFold (f g gs : ℕ → ℚ) (l : List ℕ) (A : Mat) : Mat :=
  l.foldl (fun B i => upd (upd (upd B i i (f i)) i (i-1) (g i)) (i-1) i (gs i)) A

/-- Both assembled matrices share this bordered shape: the loop runs over
interior indices 1 .. nx-2 starting from the zero matrix, then the two
boundary diagonal entries are set to 1. -/
def borderedTridiag (f g gs : ℕ → ℚ) (nx : ℤ) : Mat :=
  upd (upd (tridiagFold f g gs (List.range' 1 (nx - 2).toNat) (fun _ _ => 0)) 0 0 1)
    ((nx - 1).toNat) ((nx - 1).toNat) 1

lemma assemble_mass_matrix_eq (nx : ℤ) (dx : ℚ) :
    assemble_mass_matrix nx dx =
      borderedTridiag (fun _ => 2/3*dx) (fun _ => 1/6*dx) (fun _ => 1/6*dx) nx := rfl

lemma assemble_stiffness_matrix_eq (Dc : ℚ → ℚ) (u : Vec) (nx : ℤ) (dx : ℚ) :
    assemble_stiffness_matrix Dc u nx dx =
      borderedTridiag (fun i => 2*(Dc (u i))/dx) (fun i => -(Dc (u i))/dx)
        (fun i => -(Dc (u i))/dx) nx := rfl

/-- A cell that no iteration of the loop writes keeps its initial value. -/
lemma tridiagFold_untouched (f g gs : ℕ → ℚ) (l : List ℕ) (A : Mat) (r c : ℕ)
    (h : ∀ i ∈ l, 1 ≤ i ∧ ¬(r = i ∧ c = i) ∧ ¬(r = i ∧ c + 1 = i) ∧ ¬(r + 1 = i ∧ c = i)) :
    tridiagFold f g gs l A r c = A r c := by
  induction l generalizing A with
  | nil => rfl
  | cons a t ih =>
    obtain ⟨ha1, ha2, ha3, ha4⟩ := h a (List.mem_cons_self a t)
    have step : tridiagFold f g gs (a :: t) A = tridiagFold f g gs t
        (upd (upd (upd A a a (f a)) a (a-1) (g a)) (a-1) a (gs a)) := rfl
    rw [step, ih _ (fun i hi => h i (List.mem_cons_of_mem a hi))]
    simp only [upd]
    split_ifs <;> first | rfl | omega

/-- The diagonal entry at an interior index i of the list is f i. -/
lemma tridiagFold_diag (f g gs : ℕ → ℚ) (l : List ℕ) (hl : l.Nodup)
    (h1 : ∀ i ∈ l, 1 ≤ i) (A : Mat) (r : ℕ) (hr : r ∈ l) :
    tridiagFold f g gs l A r r = f r := by
  induction l generalizing A with
  | nil => cases hr
  | cons a t ih =>
    have hat : a ∉ t := (List.nodup_cons.mp hl).1
    have hlt : t.Nodup := (List.nodup_cons.mp hl).2
    have ha1 : 1 ≤ a := h1 a (List.mem_cons_self a t)
    have h1t : ∀ i ∈ t, 1 ≤ i := fun i hi => h1 i (List.mem_cons_of_mem a hi)
    have step : tridiagFold f g gs (a :: t) A = tridiagFold f g gs t
        (upd (upd (upd A a a (f a)) a (a-1) (g a)) (a-1) a (gs a)) := rfl
    rw [step]
    rcases List.mem_cons.mp hr with h | h
    · subst h
      have hne : ∀ i ∈ t, i ≠ r := fun i hi e => hat (e ▸ hi)
      rw [tridiagFold_untouched f g gs t _ r r
        (fun i hi => by have := hne i hi; exact ⟨h1t i hi, by omega, by omega, by omega⟩)]
      have e1 : ¬(r = r - 1 ∧ r = r) := by omega
      have e2 : ¬(r = r ∧ r = r - 1) := by omega
      unfold upd
      rw [if_neg e1, if_neg e2, if_pos ⟨rfl, rfl⟩]
    · exact ih hlt h1t _ h

/-- The sub-diagonal entry at (i, i-1) for an interior index i is g i. -/
lemma tridiagFold_sub (f g gs : ℕ → ℚ) (l : List ℕ) (hl : l.Nodup)
    (h1 : ∀ i ∈ l, 1 ≤ i) (A : Mat) (r : ℕ) (hr : r ∈ l) :
    tridiagFold f g gs l A r (r - 1) = g r := by
  induction l generalizing A with
  | nil => cases hr
  | cons a t ih =>
    have hat : a ∉ t := (List.nodup_cons.mp hl).1
    have hlt : t.Nodup := (List.nodup_cons.mp hl).2
    have ha1 : 1 ≤ a := h1 a (List.mem_cons_self a t)
    have h1t : ∀ i ∈ t, 1 ≤ i := fun i hi => h1 i (List.mem_cons_of_mem a hi)
    have step : tridiagFold f g gs (a :: t) A = tridiagFold f g gs t
        (upd (upd (upd A a a (f a)) a (a-1) (g a)) (a-1) a (gs a)) := rfl
    rw [step]
    rcases List.mem_cons.mp hr with h | h
    · subst h
      have hne : ∀ i ∈ t, i ≠ r := fun i hi e => hat (e ▸ hi)
      rw [tridiagFold_untouched f g gs t _ r (r - 1)
        (fun i hi => by have := hne i hi; exact ⟨h1t i hi, by omega, by omega, by omega⟩)]
      have e1 : ¬(r = r - 1 ∧ r - 1 = r) := by omega
      unfold upd
      rw [if_neg e1, if_pos ⟨rfl, rfl⟩]
    · exact ih hlt h1t _ h

/-- The super-diagonal entry at (i-1, i) for an interior index i is gs i. -/
lemma tridiagFold_super (f g gs : ℕ → ℚ) (l : List ℕ) (hl : l.Nodup)
    (h1 : ∀ i ∈ l, 1 ≤ i) (A : Mat) (c : ℕ) (hc : c ∈ l) :
    tridiagFold f g gs l A (c - 1) c = gs c := by
  induction l generalizing A with
  | nil => cases hc
  | cons a t ih =>
    have hat : a ∉ t := (List.nodup_cons.mp hl).1
    have hlt : t.Nodup := (List.nodup_cons.mp hl).2
    have ha1 : 1 ≤ a := h1 a (List.mem_cons_self a t)
    have h1t : ∀ i ∈ t, 1 ≤ i := fun i hi => h1 i (List.mem_cons_of_mem a hi)
    have step : tridiagFold f g gs (a :: t) A = tridiagFold f g gs t
        (upd (upd (upd A a a (f a)) a (a-1) (g a)) (a-1) a (gs a)) := rfl
    rw [step]
    rcases List.mem_cons.mp hc with h | h
    · subst h
      have hne : ∀ i ∈ t, i ≠ c := fun i hi e => hat (e ▸ hi)
      rw [tridiagFold_untouched f g gs t _ (c - 1) c
        (fun i hi => by have := hne i hi; exact ⟨h1t i hi, by omega, by omega, by omega⟩)]
      unfold upd
      rw [if_pos ⟨rfl, rfl⟩]
    · exact ih hlt h1t _ h

/-- Interior membership: the loop indices are exactly 1 .. nx - 2. -/
lemma mem_loopRange (nx : ℤ) (i : ℕ) :
    i ∈ List.range' 1 (nx - 2).toNat ↔ 1 ≤ i ∧ (i : ℤ) ≤ nx - 2 := by
  rw [List.mem_range'_1]
  omega

lemma one_le_of_mem_loopRange (nx : ℤ) : ∀ i ∈ List.range' 1 (nx - 2).toNat, 1 ≤ i :=
  fun i hi => ((mem_loopRange nx i).mp hi).1

lemma borderedTridiag_diag (f g gs : ℕ → ℚ) (nx : ℤ) (i : ℕ)
    (h1 : 1 ≤ i) (h2 : (i : ℤ) ≤ nx - 2) :
    borderedTridiag f g gs nx i i = f i := by
  have hmem : i ∈ List.range' 1 (nx - 2).toNat := (mem_loopRange nx i).mpr ⟨h1, h2⟩
  have e1 : ¬(i = (nx - 1).toNat ∧ i = (nx - 1).toNat) := by omega
  have e2 : ¬(i = 0 ∧ i = 0) := by omega
  unfold borderedTridiag upd
  rw [if_neg e1, if_neg e2]
  exact tridiagFold_diag f g gs _ (List.nodup_range' _ _ 1 Nat.one_pos)
    (one_le_of_mem_loopRange nx) _ i hmem

lemma borderedTridiag_sub (f g gs : ℕ → ℚ) (nx : ℤ) (i : ℕ)
    (h1 : 1 ≤ i) (h2 : (i : ℤ) ≤ nx - 2) :
    borderedTridiag f g gs nx i (i - 1) = g i := by
  have hmem : i ∈ List.range' 1 (nx - 2).toNat := (mem_loopRange nx i).mpr ⟨h1, h2⟩
  have e1 : ¬(i = (nx - 1).toNat ∧ i - 1 = (nx - 1).toNat) := by omega
  have e2 : ¬(i = 0 ∧ i - 1 = 0) := by omega
  unfold borderedTridiag upd
  rw [if_neg e1, if_neg e2]
  exact tridiagFold_sub f g gs _ (List.nodup_range' _ _ 1 Nat.one_pos)
    (one_le_of_mem_loopRange nx) _ i hmem

lemma borderedTridiag_super (f g gs : ℕ → ℚ) (nx : ℤ) (i : ℕ)
    (h1 : 1 ≤ i) (h2 : (i : ℤ) ≤ nx - 2) :
    borderedTridiag f g gs nx (i - 1) i = gs i := by
  have hmem : i ∈ List.range' 1 (nx - 2).toNat := (mem_loopRange nx i).mpr ⟨h1, h2⟩
  have e1 : ¬(i - 1 = (nx - 1).toNat ∧ i = (nx - 1).toNat) := by omega
  have e2 : ¬(i - 1 = 0 ∧ i = 0) := by omega
  unfold borderedTridiag upd
  rw [if_neg e1, if_neg e2]
  exact tridiagFold_super f g gs _ (List.nodup_range' _ _ 1 Nat.one_pos)
    (one_le_of_mem_loopRange nx) _ i hmem

lemma borderedTridiag_00 (f g gs : ℕ → ℚ) (nx : ℤ) (hnx : 2 ≤ nx) :
    borderedTridiag f g gs nx 0 0 = 1 := by
  have e1 : ¬((0:ℕ) = (nx - 1).toNat ∧ (0:ℕ) = (nx - 1).toNat) := by omega
  unfold borderedTridiag upd
  rw [if_neg e1, if_pos ⟨rfl, rfl⟩]

lemma borderedTridiag_NN (f g gs : ℕ → ℚ) (nx : ℤ) :
    borderedTridiag f g gs nx ((nx - 1).toNat) ((nx - 1).toNat) = 1 := by
  unfold borderedTridiag upd
  rw [if_pos ⟨rfl, rfl⟩]

lemma borderedTridiag_row0 (f g gs : ℕ → ℚ) (nx : ℤ) (j : ℕ) (hj : 2 ≤ j) :
    borderedTridiag f g gs nx 0 j = 0 := by
  have e1 : ¬((0:ℕ) = (nx - 1).toNat ∧ j = (nx - 1).toNat) := by omega
  have e2 : ¬((0:ℕ) = 0 ∧ j = 0) := by omega
  unfold borderedTridiag upd
  rw [if_neg e1, if_neg e2]
  exact tridiagFold_untouched f g gs _ _ 0 j
    (fun i hi => by have := (mem_loopRange nx i).mp hi; exact ⟨this.1, by omega, by omega, by omega⟩)

lemma borderedTridiag_01_two (f g gs : ℕ → ℚ) (nx : ℤ) (hnx : nx = 2) :
    borderedTridiag f g gs nx 0 1 = 0 := by
  subst hnx
  have e1 : ¬((0:ℕ) = ((2:ℤ) - 1).toNat ∧ (1:ℕ) = ((2:ℤ) - 1).toNat) := by omega
  have e2 : ¬((0:ℕ) = 0 ∧ (1:ℕ) = 0) := by omega
  unfold borderedTridiag upd
  rw [if_neg e1, if_neg e2]
  exact tridiagFold_untouched f g gs _ _ 0 1
    (fun i hi => by have := (mem_loopRange 2 i).mp hi; exact ⟨this.1, by omega, by omega, by omega⟩)

lemma borderedTridiag_rowN (f g gs : ℕ → ℚ) (nx : ℤ) (hnx : 2 ≤ nx) (j : ℕ)
    (hj : j ≠ (nx - 1).toNat) :
    borderedTridiag f g gs nx ((nx - 1).toNat) j = 0 := by
  have e1 : ¬((nx - 1).toNat = (nx - 1).toNat ∧ j = (nx - 1).toNat) := by omega
  have e2 : ¬((nx - 1).toNat = 0 ∧ j = 0) := by omega
  unfold borderedTridiag upd
  rw [if_neg e1, if_neg e2]
  exact tridiagFold_untouched f g gs _ _ ((nx - 1).toNat) j
    (fun i hi => by have := (mem_loopRange nx i).mp hi; exact ⟨this.1, by omega, by omega, by omega⟩)

/-! ### Solver-level helper lemmas -/

/-- The linear solve on an invertible matrix returns the exact solution of
the n-by-n system. -/
lemma linSolveVec_solves (n : ℕ) (A : Mat) (b : Vec)
    (hdet : (finMat n A).det ≠ 0) :
    finMat n A *ᵥ finVec n (linSolveVec n A b) = finVec n b := by
  have h1 : finVec n (linSolveVec n A b) = (finMat n A).det⁻¹ • Matrix.cramer (finMat n A) (finVec n b) := by
    funext i
    simp only [finVec, linSolveVec, if_neg hdet, i.isLt, dif_pos, Fin.eta]
    rw [div_eq_inv_mul]
    rfl
  rw [h1, Matrix.mulVec_smul, Matrix.mulVec_cramer, inv_smul_smul₀ hdet]

/-- One loop iteration leaves every member except the solution vector
unchanged. -/
lemma stepWith_frame (Dc : ℚ → ℚ) (s : FEMSolver) :
    (stepWith Dc s).nx = s.nx ∧ (stepWith Dc s).L = s.L ∧ (stepWith Dc s).dx = s.dx ∧
      (stepWith Dc s).dt = s.dt ∧ (stepWith Dc s).nt = s.nt ∧ (stepWith Dc s).M = s.M :=
  ⟨rfl, rfl, rfl, rfl, rfl, rfl⟩

/-- The counted loop is iteration of the loop body. -/
lemma solveLoopWith_eq_iterate (Dc : ℚ → ℚ) (k : ℕ) (s : FEMSolver) :
    solveLoopWith Dc k s = (stepWith Dc)^[k] s := by
  induction k generalizing s with
  | zero => rfl
  | succ k ih => rw [Function.iterate_succ_apply]; exact ih (stepWith Dc s)

/-- FEMSolver::solve runs the loop body exactly nt times. -/
lemma solveWith_eq_iterate (Dc : ℚ → ℚ) (s : FEMSolver) :
    solveWith Dc s = (stepWith Dc)^[s.nt.toNat] s :=
  solveLoopWith_eq_iterate Dc s.nt.toNat s

/-- Any number of loop iterations leaves every member except the solution
vector unchanged. -/
lemma iterate_stepWith_frame (Dc : ℚ → ℚ) (k : ℕ) (s : FEMSolver) :
    ((stepWith Dc)^[k] s).nx = s.nx ∧ ((stepWith Dc)^[k] s).L = s.L ∧
      ((stepWith Dc)^[k] s).dx = s.dx ∧ ((stepWith Dc)^[k] s).dt = s.dt ∧
      ((stepWith Dc)^[k] s).nt = s.nt ∧ ((stepWith Dc)^[k] s).M = s.M := by
  induction k with
  | zero => exact ⟨rfl, rfl, rfl, rfl, rfl, rfl⟩
  | succ k ih => rw [Function.iterate_succ_apply']; exact ih

/-- The boundary overwrite pins index 0 to 1. -/
lemma apply_boundary_conditions_left (nx : ℤ) (v : Vec) :
    apply_boundary_conditions nx v 0 = 1 := by
  unfold apply_boundary_conditions updVec
  split_ifs <;> first | rfl | omega

/-- The boundary overwrite pins index nx - 1 to 1. -/
lemma apply_boundary_conditions_right (nx : ℤ) (v : Vec) :
    apply_boundary_conditions nx v ((nx - 1).toNat) = 1 := by
  unfold apply_boundary_conditions updVec
  rw [if_pos rfl]

/-- The boundary overwrite changes no other index. -/
lemma apply_boundary_conditions_other (nx : ℤ) (v : Vec) (j : ℕ)
    (hj0 : j ≠ 0) (hjN : j ≠ (nx - 1).toNat) :
    apply_boundary_conditions nx v j = v j := by
  unfold apply_boundary_conditions updVec
  rw [if_neg hjN, if_neg hj0]

/-- After a loop iteration the committed solution carries the Dirichlet
values at both ends. -/
lemma stepWith_boundary (Dc : ℚ → ℚ) (s : FEMSolver) :
    (stepWith Dc s).u 0 = 1 ∧ (stepWith Dc s).u ((s.nx - 1).toNat) = 1 :=
  ⟨apply_boundary_conditions_left s.nx _, apply_boundary_conditions_right s.nx _⟩

/-! ### Claim theorems -/

/-- C3: for every h > 0 and N >= 2 the assembled mass matrix has interior
diagonal 2h/3, interior sub- and super-diagonal h/6, unit corners at (0,0)
and (N-1,N-1), and every entry of rows 0 and N-1 not named by those clauses
is 0. -/
theorem fem_mass_matrix_entries (nx : ℤ) (dx : ℚ) (hnx : 2 ≤ nx) (hdx : 0 < dx) :
    (∀ i : ℕ, 1 ≤ i → (i : ℤ) ≤ nx - 2 →
      assemble_mass_matrix nx dx i i = 2*dx/3 ∧
      assemble_mass_matrix nx dx i (i-1) = dx/6 ∧
      assemble_mass_matrix nx dx (i-1) i = dx/6) ∧
    assemble_mass_matrix nx dx 0 0 = 1 ∧
    assemble_mass_matrix nx dx ((nx - 1).toNat) ((nx - 1).toNat) = 1 ∧
    (∀ j : ℕ, 2 ≤ j → assemble_mass_matrix nx dx 0 j = 0) ∧
    (nx = 2 → assemble_mass_matrix nx dx 0 1 = 0) ∧
    (∀ j : ℕ, j ≠ (nx - 1).toNat → assemble_mass_matrix nx dx ((nx - 1).toNat) j = 0) := by
  rw [assemble_mass_matrix_eq]
  refine ⟨fun i h1 h2 => ⟨?_, ?_, ?_⟩, ?_, ?_, fun j hj => ?_, fun h2 => ?_, fun j hj => ?_⟩
  · rw [borderedTridiag_diag _ _ _ nx i h1 h2]; ring
  · rw [borderedTridiag_sub _ _ _ nx i h1 h2]; ring
  · rw [borderedTridiag_super _ _ _ nx i h1 h2]; ring
  · exact borderedTridiag_00 _ _ _ nx hnx
  · exact borderedTridiag_NN _ _ _ nx
  · exact borderedTridiag_row0 _ _ _ nx j hj
  · exact borderedTridiag_01_two _ _ _ nx h2
  · exact borderedTridiag_rowN _ _ _ nx hnx j hj

/-- C3 witness at nx = 4, dx = 1/2. -/
theorem fem_mass_matrix_entries_witness :
    assemble_mass_matrix 4 (1/2) 1 1 = 2*(1/2)/3 ∧ assemble_mass_matrix 4 (1/2) 0 0 = 1 :=
  ⟨((fem_mass_matrix_entries 4 (1/2) (by norm_num) (by norm_num)).1 1
      (by norm_num) (by norm_num)).1,
    (fem_mass_matrix_entries 4 (1/2) (by norm_num) (by norm_num)).2.1⟩

/-- C4: for every solution vector, h > 0, N >= 2 and diffusion function the
assembled stiffness matrix has interior diagonal 2 D(u(i)) / h, interior sub-
and super-diagonal -D(u(i)) / h with the coefficient evaluated at that node,
unit corners, the remaining entries of rows 0 and N-1 equal to 0, and it is
a pure function of the u passed at the call. -/
theorem fem_stiffness_matrix_entries (Dc : ℚ → ℚ) (u : Vec) (nx : ℤ) (dx : ℚ)
    (hnx : 2 ≤ nx) (hdx : 0 < dx) :
    (∀ i : ℕ, 1 ≤ i → (i : ℤ) ≤ nx - 2 →
      assemble_stiffness_matrix Dc u nx dx i i = 2*(Dc (u i))/dx ∧
      assemble_stiffness_matrix Dc u nx dx i (i-1) = -(Dc (u i))/dx ∧
      assemble_stiffness_matrix Dc u nx dx (i-1) i = -(Dc (u i))/dx) ∧
    assemble_stiffness_matrix Dc u nx dx 0 0 = 1 ∧
    assemble_stiffness_matrix Dc u nx dx ((nx - 1).toNat) ((nx - 1).toNat) = 1 ∧
    (∀ j : ℕ, 2 ≤ j → assemble_stiffness_matrix Dc u nx dx 0 j = 0) ∧
    (nx = 2 → assemble_stiffness_matrix Dc u nx dx 0 1 = 0) ∧
    (∀ j : ℕ, j ≠ (nx - 1).toNat →
      assemble_stiffness_matrix Dc u nx dx ((nx - 1).toNat) j = 0) ∧
    (∀ v : Vec, (∀ j, v j = u j) →
      assemble_stiffness_matrix Dc v nx dx = assemble_stiffness_matrix Dc u nx dx) := by
  rw [assemble_stiffness_matrix_eq]
  refine ⟨fun i h1 h2 => ⟨?_, ?_, ?_⟩, ?_, ?_, fun j hj => ?_, fun h2 => ?_, fun j hj => ?_,
    fun v hv => ?_⟩
  · exact borderedTridiag_diag _ _ _ nx i h1 h2
  · exact borderedTridiag_sub _ _ _ nx i h1 h2
  · exact borderedTridiag_super _ _ _ nx i h1 h2
  · exact borderedTridiag_00 _ _ _ nx hnx
  · exact borderedTridiag_NN _ _ _ nx
  · exact borderedTridiag_row0 _ _ _ nx j hj
  · exact borderedTridiag_01_two _ _ _ nx h2
  · exact borderedTridiag_rowN _ _ _ nx hnx j hj
  · have hvu : v = u := funext hv
    rw [hvu, assemble_stiffness_matrix_eq]

/-- C4 witness at the engine coefficient D, all-ones u, nx = 4, dx = 1/2. -/
theorem fem_stiffness_matrix_entries_witness :
    assemble_stiffness_matrix D (fun _ => 1) 4 (1/2) 1 1 = 2*(D 1)/(1/2) ∧
    assemble_stiffness_matrix D (fun _ => 1) 4 (1/2) 0 0 = 1 :=
  ⟨((fem_stiffness_matrix_entries D (fun _ => 1) 4 (1/2) (by norm_num) (by norm_num)).1 1
      (by norm_num) (by norm_num)).1,
    (fem_stiffness_matrix_entries D (fun _ => 1) 4 (1/2) (by norm_num) (by norm_num)).2.1⟩

/-- C10: for N >= 3 and h > 0 the first row of the assembled mass matrix is
not an identity row, because M(0,1) = h/6 survives the boundary overwrite of
M(0,0), and likewise K(0,1) = -D(u(1))/h; by contrast row N-1 of both
matrices is an exact identity row. -/
theorem fem_first_row_not_identity (Dc : ℚ → ℚ) (u : Vec) (nx : ℤ) (dx : ℚ)
    (hnx : 3 ≤ nx) (hdx : 0 < dx) :
    assemble_mass_matrix nx dx 0 1 = dx/6 ∧
    assemble_mass_matrix nx dx 0 1 ≠ 0 ∧
    assemble_stiffness_matrix Dc u nx dx 0 1 = -(Dc (u 1))/dx ∧
    (assemble_mass_matrix nx dx ((nx - 1).toNat) ((nx - 1).toNat) = 1 ∧
      ∀ j : ℕ, j ≠ (nx - 1).toNat → assemble_mass_matrix nx dx ((nx - 1).toNat) j = 0) ∧
    (assemble_stiffness_matrix Dc u nx dx ((nx - 1).toNat) ((nx - 1).toNat) = 1 ∧
      ∀ j : ℕ, j ≠ (nx - 1).toNat →
        assemble_stiffness_matrix Dc u nx dx ((nx - 1).toNat) j = 0) := by
  have h1 : (1:ℕ) ≤ 1 := le_refl 1
  have h2 : ((1:ℕ) : ℤ) ≤ nx - 2 := by omega
  have hnx2 : 2 ≤ nx := by omega
  have hM01 : assemble_mass_matrix nx dx 0 1 = 1/6*dx := by
    rw [assemble_mass_matrix_eq]
    exact borderedTridiag_super (fun _ => 2/3*dx) (fun _ => 1/6*dx) (fun _ => 1/6*dx) nx 1 h1 h2
  refine ⟨by rw [hM01]; ring, ?_, ?_, ⟨?_, fun j hj => ?_⟩, ⟨?_, fun j hj => ?_⟩⟩
  · rw [hM01]
    have hpos : 0 < 1/6*dx := by positivity
    exact hpos.ne'
  · rw [assemble_stiffness_matrix_eq]
    exact borderedTridiag_super (fun i => 2*(Dc (u i))/dx) (fun i => -(Dc (u i))/dx)
      (fun i => -(Dc (u i))/dx) nx 1 h1 h2
  · rw [assemble_mass_matrix_eq]; exact borderedTridiag_NN _ _ _ nx
  · rw [assemble_mass_matrix_eq]; exact borderedTridiag_rowN _ _ _ nx hnx2 j hj
  · rw [assemble_stiffness_matrix_eq]; exact borderedTridiag_NN _ _ _ nx
  · rw [assemble_stiffness_matrix_eq]; exact borderedTridiag_rowN _ _ _ nx hnx2 j hj

/-- C10 witness at the engine coefficient D, all-ones u, nx = 3, dx = 1. -/
theorem fem_first_row_not_identity_witness :
    assemble_mass_matrix 3 1 0 1 = 1/6 ∧ assemble_mass_matrix 3 1 0 1 ≠ 0 :=
  ⟨(fem_first_row_not_identity D (fun _ => 1) 3 1 (by norm_num) (by norm_num)).1,
   (fem_first_row_not_identity D (fun _ => 1) 3 1 (by norm_num) (by norm_num)).2.1⟩

/-- C1: for every state with N >= 2, one iteration of the run operation
assembles K from the current u, solves M u_new = M u - dt K u (using the
mass matrix held in the state), applies the boundary overwrite and commits
the result; the run operation performs exactly nt such iterations with no
early exit, and whenever M is invertible the committed pre-boundary vector
is an exact solution of that linear system. -/
theorem fem_solve_runs_T_steps (s : FEMSolver) (hnx : 2 ≤ s.nx) :
    solve s = (stepWith D)^[s.nt.toNat] s ∧
    stepWith D s = FEMSolver.mk s.nx s.L s.dx s.dt s.nt
      (apply_boundary_conditions s.nx
        (linSolveVec s.nx.toNat s.M (fun i =>
          matVecMul s.nx.toNat s.M s.u i -
            s.dt * matVecMul s.nx.toNat (assemble_stiffness_matrix D s.u s.nx s.dx) s.u i)))
      s.M ∧
    ((finMat s.nx.toNat s.M).det ≠ 0 →
      finMat s.nx.toNat s.M *ᵥ
        finVec s.nx.toNat (linSolveVec s.nx.toNat s.M (fun i =>
          matVecMul s.nx.toNat s.M s.u i -
            s.dt * matVecMul s.nx.toNat (assemble_stiffness_matrix D s.u s.nx s.dx) s.u i)) =
      finVec s.nx.toNat (fun i =>
        matVecMul s.nx.toNat s.M s.u i -
          s.dt * matVecMul s.nx.toNat (assemble_stiffness_matrix D s.u s.nx s.dx) s.u i)) :=
  ⟨solveWith_eq_iterate D s, rfl, fun hdet => linSolveVec_solves s.nx.toNat s.M _ hdet⟩

/-- C1 witness at the configuration nx = 3, L = 2, dt = 1, nt = 1. -/
theorem fem_solve_runs_T_steps_witness :
    solve (construct 3 2 1 1) =
      (stepWith D)^[(construct 3 2 1 1).nt.toNat] (construct 3 2 1 1) :=
  (fem_solve_runs_T_steps (construct 3 2 1 1) (by decide)).1

/-- C2: for every valid configuration the committed solution vector has
value 1 at indices 0 and N-1 after every completed iteration, including the
initial state before any iteration, and in particular after the full run. -/
theorem fem_boundary_dirichlet_invariant (nx : ℤ) (L dt : ℚ) (nt : ℤ)
    (hnx : 2 ≤ nx) (hL : 0 < L) (hdt : 0 < dt) (hnt : 0 ≤ nt) :
    (∀ k : ℕ, ((stepWith D)^[k] (construct nx L dt nt)).u 0 = 1 ∧
      ((stepWith D)^[k] (construct nx L dt nt)).u ((nx - 1).toNat) = 1) ∧
    (solve (construct nx L dt nt)).u 0 = 1 ∧
    (solve (construct nx L dt nt)).u ((nx - 1).toNat) = 1 := by
  have hk : ∀ k : ℕ, ((stepWith D)^[k] (construct nx L dt nt)).u 0 = 1 ∧
      ((stepWith D)^[k] (construct nx L dt nt)).u ((nx - 1).toNat) = 1 := by
    intro k
    cases k with
    | zero => exact ⟨rfl, rfl⟩
    | succ k =>
      rw [Function.iterate_succ_apply']
      have hfr : ((stepWith D)^[k] (construct nx L dt nt)).nx = nx :=
        (iterate_stepWith_frame D k (construct nx L dt nt)).1
      have hb := stepWith_boundary D ((stepWith D)^[k] (construct nx L dt nt))
      have hb2 := hb.2
      rw [hfr] at hb2
      exact ⟨hb.1, hb2⟩
  refine ⟨hk, ?_, ?_⟩
  · rw [solve, solveWith_eq_iterate]; exact (hk _).1
  · rw [solve, solveWith_eq_iterate]; exact (hk _).2

/-- C2 witness at the configuration nx = 3, L = 2, dt = 1/1000, nt = 5,
after two iterations. -/
theorem fem_boundary_dirichlet_invariant_witness :
    ((stepWith D)^[2] (construct 3 2 (1/1000) 5)).u 0 = 1 ∧
      ((stepWith D)^[2] (construct 3 2 (1/1000) 5)).u (((3:ℤ) - 1).toNat) = 1 :=
  (fem_boundary_dirichlet_invariant 3 2 (1/1000) 5
    (by norm_num) (by norm_num) (by norm_num) (by norm_num)).1 2

/-- C7: the mass matrix is computed at construction and never modified: the
run operation and its iterations mutate only the solution vector, leaving
M, nx, L, dx, dt and nt unchanged. -/
theorem fem_mass_matrix_immutable :
    (∀ nx : ℤ, ∀ L dt : ℚ, ∀ nt : ℤ,
      (construct nx L dt nt).M = assemble_mass_matrix nx (L / ((nx : ℚ) - 1))) ∧
    (∀ Dc : ℚ → ℚ, ∀ k : ℕ, ∀ s : FEMSolver,
      ((stepWith Dc)^[k] s).M = s.M ∧ ((stepWith Dc)^[k] s).nx = s.nx ∧
      ((stepWith Dc)^[k] s).L = s.L ∧ ((stepWith Dc)^[k] s).dx = s.dx ∧
      ((stepWith Dc)^[k] s).dt = s.dt ∧ ((stepWith Dc)^[k] s).nt = s.nt) ∧
    (∀ s : FEMSolver,
      (solve s).M = s.M ∧ (solve s).nx = s.nx ∧ (solve s).L = s.L ∧
      (solve s).dx = s.dx ∧ (solve s).dt = s.dt ∧ (solve s).nt = s.nt) := by
  refine ⟨fun nx L dt nt => rfl, fun Dc k s => ?_, fun s => ?_⟩
  · obtain ⟨h1, h2, h3, h4, h5, h6⟩ := iterate_stepWith_frame Dc k s
    exact ⟨h6, h1, h2, h3, h4, h5⟩
  · rw [solve, solveWith_eq_iterate]
    obtain ⟨h1, h2, h3, h4, h5, h6⟩ := iterate_stepWith_frame D s.nt.toNat s
    exact ⟨h6, h1, h2, h3, h4, h5⟩

/-- C9: invoking the run operation a second time continues from where the
first left off: two consecutive runs on the same engine equal 2 nt
applications of the single-iteration transition to the initial state. -/
theorem fem_solve_reinvocation (s : FEMSolver) :
    solve (solve s) = (stepWith D)^[2 * s.nt.toNat] s := by
  have h1 : solve s = (stepWith D)^[s.nt.toNat] s := solveWith_eq_iterate D s
  have h2 : solve (solve s) = (stepWith D)^[(solve s).nt.toNat] (solve s) :=
    solveWith_eq_iterate D (solve s)
  have h3 : (solve s).nt = s.nt := by
    rw [h1]; exact (iterate_stepWith_frame D s.nt.toNat s).2.2.2.2.1
  rw [h2, h3, h1, ← Function.iterate_add_apply, two_mul]

/-- C5 counterexample: at the invalid parameters nodeCount = 2,
domainLength = -1 (violating L > 0) construction does not fail: it produces
a fully initialised state with h = -1 and u all ones. -/
theorem fem_construct_validation_counterexample :
    ¬(0 < (-1 : ℚ)) ∧ (construct 2 (-1) 1 1).dx = -1 ∧
      (construct 2 (-1) 1 1).u 0 = 1 ∧ (construct 2 (-1) 1 1).u 1 = 1 ∧
      (construct 2 (-1) 1 1).nx = 2 := by
  refine ⟨by norm_num, ?_, rfl, rfl, rfl⟩
  show (-1 : ℚ) / (((2:ℤ) : ℚ) - 1) = -1
  norm_num

/-- C5 amended: the constructor performs no validation and never fails; for
any parameters with nodeCount >= 2 it yields h = L/(N-1) and u the all-ones
vector of length N, and invalid domain length, time step or step count are
not rejected. -/
theorem fem_construct_no_validation (nx : ℤ) (L dt : ℚ) (nt : ℤ) (hnx : 2 ≤ nx) :
    (construct nx L dt nt).dx = L / ((nx : ℚ) - 1) ∧
    (∀ i : ℕ, (i : ℤ) < nx → (construct nx L dt nt).u i = 1) :=
  ⟨rfl, fun _ _ => rfl⟩

/-- C5 witness at nodeCount = 2 with the invalid domain length -5. -/
theorem fem_construct_no_validation_witness :
    (construct 2 (-5) 1 1).dx = (-5) / (((2:ℤ) : ℚ) - 1) ∧
      (construct 2 (-5) 1 1).u 0 = 1 :=
  ⟨(fem_construct_no_validation 2 (-5) 1 1 (by decide)).1,
   (fem_construct_no_validation 2 (-5) 1 1 (by decide)).2 0 (by decide)⟩

/-- With domain length 0 the derived dx is 0 and the assembled mass matrix
is singular. -/
lemma mass_det_construct_3_0 : (finMat 3 (construct 3 0 1 1).M).det = 0 := by
  rw [Matrix.det_fin_three]
  norm_num [finMat, construct, Matrix.of_apply, Fin.val_zero, Fin.val_one, Fin.val_two,
    assemble_mass_matrix, upd, List.range'_succ, show Int.toNat 2 = 2 from rfl]

/-- C6 counterexample: with nodeCount 3 and domainLength 0 the mass matrix
is singular, yet the run does not fail: it performs its single step and
commits a state whose interior entry is the unchecked solver output (the
model placeholder 0), differing from the pre-step state; only the boundary
overwrite fixes the end values. -/
theorem fem_singular_system_counterexample :
    (finMat 3 (construct 3 0 1 1).M).det = 0 ∧
    solve (construct 3 0 1 1) = stepWith D (construct 3 0 1 1) ∧
    (solve (construct 3 0 1 1)).u 0 = 1 ∧
    (solve (construct 3 0 1 1)).u 2 = 1 ∧
    (solve (construct 3 0 1 1)).u 1 ≠ (construct 3 0 1 1).u 1 := by
  refine ⟨mass_det_construct_3_0, rfl, (stepWith_boundary D (construct 3 0 1 1)).1,
    (stepWith_boundary D (construct 3 0 1 1)).2, ?_⟩
  have h0 : (solve (construct 3 0 1 1)).u 1 =
      apply_boundary_conditions 3
        (linSolveVec 3 (construct 3 0 1 1).M
          (fun i => matVecMul 3 (construct 3 0 1 1).M (construct 3 0 1 1).u i -
            (construct 3 0 1 1).dt *
              matVecMul 3 (assemble_stiffness_matrix D (construct 3 0 1 1).u
                (construct 3 0 1 1).nx (construct 3 0 1 1).dx) (construct 3 0 1 1).u i)) 1 := rfl
  rw [h0, apply_boundary_conditions_other 3 _ 1 (by decide) (by decide)]
  unfold linSolveVec
  rw [if_pos mass_det_construct_3_0]
  intro h
  exact absurd h (by norm_num [construct])

/-- C6 amended: the run operation has no failure path: even when the mass
matrix is singular the loop performs all nt iterations (the per-step solver
output is unspecified but never signalled), and after at least one iteration
the committed state still carries the boundary values. -/
theorem fem_singular_system_no_abort (s : FEMSolver)
    (hdet : (finMat s.nx.toNat s.M).det = 0) :
    solve s = (stepWith D)^[s.nt.toNat] s ∧
    (1 ≤ s.nt.toNat → (solve s).u 0 = 1 ∧ (solve s).u ((s.nx - 1).toNat) = 1) := by
  refine ⟨solveWith_eq_iterate D s, fun hk => ?_⟩
  obtain ⟨k, hk'⟩ : ∃ k, s.nt.toNat = k + 1 := ⟨s.nt.toNat - 1, by omega⟩
  rw [solve, solveWith_eq_iterate, hk', Function.iterate_succ_apply']
  have hfr : ((stepWith D)^[k] s).nx = s.nx := (iterate_stepWith_frame D k s).1
  have hb := stepWith_boundary D ((stepWith D)^[k] s)
  have hb2 := hb.2
  rw [hfr] at hb2
  exact ⟨hb.1, hb2⟩

/-- C6 witness at the singular configuration nx = 3, L = 0. -/
theorem fem_singular_system_no_abort_witness :
    (finMat (construct 3 0 1 1).nx.toNat (construct 3 0 1 1).M).det = 0 ∧
    solve (construct 3 0 1 1) =
      (stepWith D)^[(construct 3 0 1 1).nt.toNat] (construct 3 0 1 1) :=
  ⟨mass_det_construct_3_0,
   (fem_singular_system_no_abort (construct 3 0 1 1) mass_det_construct_3_0).1⟩

/-- The mass matrix of the configuration nx = 3, L = 2 has determinant
23/36. -/
lemma mass_det_construct_3_2 : (finMat 3 (construct 3 2 1 1).M).det = 23/36 := by
  rw [Matrix.det_fin_three]
  norm_num [finMat, construct, Matrix.of_apply, Fin.val_zero, Fin.val_one, Fin.val_two,
    assemble_mass_matrix, upd, List.range'_succ, show Int.toNat 2 = 2 from rfl]

/-- C8 counterexample: with the constant diffusion coefficient 1, Dirichlet
value 1 equal to the uniform initial value, and the valid configuration
nx = 3, L = 2, dt = 1, nt = 1, one run changes the interior entry u(1) from
1 to -13/23: the uniform state is not a fixed point of the step. -/
theorem fem_uniform_fixed_point_counterexample :
    (solveWith (fun _ => (1:ℚ)) (construct 3 2 1 1)).u 1 = -13/23 ∧
    (solveWith (fun _ => (1:ℚ)) (construct 3 2 1 1)).u 1 ≠ (construct 3 2 1 1).u 1 := by
  have hval : (solveWith (fun _ => (1:ℚ)) (construct 3 2 1 1)).u 1 = -13/23 := by
    have h0 : (solveWith (fun _ => (1:ℚ)) (construct 3 2 1 1)).u 1 =
        apply_boundary_conditions 3
          (linSolveVec 3 (construct 3 2 1 1).M
            (fun i => matVecMul 3 (construct 3 2 1 1).M (construct 3 2 1 1).u i -
              (construct 3 2 1 1).dt *
                matVecMul 3 (assemble_stiffness_matrix (fun _ => (1:ℚ)) (construct 3 2 1 1).u
                  (construct 3 2 1 1).nx (construct 3 2 1 1).dx) (construct 3 2 1 1).u i)) 1 := rfl
    rw [h0, apply_boundary_conditions_other 3 _ 1 (by decide) (by decide)]
    unfold linSolveVec
    rw [if_neg (by rw [mass_det_construct_3_2]; norm_num)]
    show (if h : (1:ℕ) < 3 then _ / _ else 0) = -13/23
    rw [dif_pos (show (1:ℕ) < 3 by norm_num), Matrix.cramer_apply, mass_det_construct_3_2,
      Matrix.det_fin_three]
    norm_num [Matrix.updateColumn_apply, finMat, finVec, Matrix.of_apply, Fin.ext_iff,
      Fin.val_zero, Fin.val_one, Fin.val_two, construct, assemble_mass_matrix,
      assemble_stiffness_matrix, matVecMul, Finset.sum_range_succ, Finset.sum_range_zero,
      upd, List.range'_succ, show Int.toNat 2 = 2 from rfl]
  refine ⟨hval, ?_⟩
  rw [hval]
  intro h
  exact absurd h (by norm_num [construct])

/-- C8 amended: with a constant diffusion coefficient and Dirichlet value 1
equal to the uniform initial value, the run leaves u unchanged at every
index when no step is taken (nt = 0) or when N = 2, where every index is a
boundary index; for N >= 3 a single step can change interior values. -/
theorem fem_uniform_fixed_point_amended (c : ℚ) (nx : ℤ) (L dt : ℚ) (nt : ℤ)
    (hnx : 2 ≤ nx) (hL : 0 < L) (hdt : 0 < dt) (hnt : 0 ≤ nt)
    (hcase : nx = 2 ∨ nt = 0) :
    ∀ i : ℕ, (i : ℤ) < nx → (solveWith (fun _ => c) (construct nx L dt nt)).u i = 1 := by
  intro i hi
  rcases hcase with h2 | h0
  · subst h2
    have hi2 : i = 0 ∨ i = 1 := by omega
    rw [solveWith_eq_iterate]
    have key : ∀ k : ℕ, ∀ t : FEMSolver, t.nx = 2 → t.u 0 = 1 → t.u 1 = 1 →
        ((stepWith (fun _ => c))^[k] t).u 0 = 1 ∧ ((stepWith (fun _ => c))^[k] t).u 1 = 1 := by
      intro k
      induction k with
      | zero => intro t ht2 ha hb; exact ⟨ha, hb⟩
      | succ k ih =>
        intro t ht2 ha hb
        rw [Function.iterate_succ_apply']
        have hfr : ((stepWith (fun _ => c))^[k] t).nx = 2 := by
          rw [(iterate_stepWith_frame (fun _ => c) k t).1, ht2]
        have hb' := stepWith_boundary (fun _ => c) ((stepWith (fun _ => c))^[k] t)
        have hb2 := hb'.2
        rw [hfr] at hb2
        exact ⟨hb'.1, hb2⟩
    rcases hi2 with h | h <;> subst h
    · exact (key _ _ rfl rfl rfl).1
    · exact (key _ _ rfl rfl rfl).2
  · subst h0
    rfl

/-- C8 witness at the constant coefficient 7, nx = 2, L = 1, dt = 1,
nt = 3, index 1. -/
theorem fem_uniform_fixed_point_amended_witness :
    (solveWith (fun _ => (7:ℚ)) (construct 2 1 1 3)).u 1 = 1 :=
  fem_uniform_fixed_point_amended 7 2 1 1 3 (by decide) (by norm_num) (by norm_num)
    (by decide) (Or.inl rfl) 1 (by decide)
